import Mathlib

/-!
Verification of the GKToday article-to-PDF pipeline (`main.py`).

The development shallowly embeds the core pipeline functions:
`check_and_insert_urls` (dedup gate), `translate_to_gujarati` (translator
with retry/fallback), `scrape_and_get_content` (article extractor),
`insert_content_between_placeholders` (document assembler), and the
seen-set flow of `main` (pipeline driver).

The persistent MongoDB seen-set is modelled as a list of strings threaded
through the functions (the collection only ever sees `find_one` membership
tests and `insert_one` appends).  Python exceptions are modelled with
`Except` where the embedded code can raise; functions that catch all
exceptions are total.
-/

/-- Generic list helper: concatenate the images of `f` over a list
(used to state theorems about block sequences; defined here to avoid
depending on version-specific library names). -/
def concatMap (f : α → List β) : List α → List β
  | [] => []
  | a :: l => f a ++ concatMap f l

/-! ## Dedup gate: `check_and_insert_urls` (main.py lines 139-145)

The MongoDB collection is modelled as a list of URL strings `seen`;
`collection.find_one({'url': url})` is a membership test and
`collection.insert_one({'url': url})` appends.  The Python `for` loop with
its `new_urls` accumulator is written as structural recursion; the function
returns the new-URL list together with the post-run seen-set state. -/

def check_and_insert_urls (urls : List String) (seen : List String) :
    List String × List String :=
  match urls with
  | [] => ([], seen)
  | u :: rest =>
    if u ∈ seen then
      check_and_insert_urls rest seen
    else
      let r := check_and_insert_urls rest (seen ++ [u])
      (u :: r.1, r.2)

/-! ## Pipeline driver seen-set flow: `main` (main.py lines 185-238)

Only `check_and_insert_urls` ever touches the seen-set collection; every
later stage (template download, scraping, assembly, PDF conversion,
delivery) is abstracted as an oracle `later` over the new URLs that may
fail.  The driver's top-level `try/except` catches any such failure and
only logs it (line 237-238); in every branch the final seen-set state is
the one produced by the dedup gate. -/

def mainRun (seen : List String) (article_urls : List String)
    (later : List String → Except String Unit) :
    Option String × List String :=
  let r := check_and_insert_urls article_urls seen
  if r.1 = [] then
    (none, r.2)
  else
    match later r.1 with
    | .ok _ => (none, r.2)
    | .error e => (some e, r.2)

/-! ## Translator: `translate_to_gujarati` (main.py lines 43-55)

The external translation service is modelled as an oracle `svc` giving the
outcome of each attempt: a successful translation, the
`TranslationNotFoundException` case, or any other exception.  The embedded
function records, besides the returned string, the number of attempts made
and the list of `time.sleep` durations, so that the retry/backoff shape is
part of the observable result.  Both `except` clauses catch their
exceptions, so the embedding is a total function: no error is ever
propagated to the caller. -/

inductive TransResult where
  | ok (s : String)
  | notFound
  | err
deriving DecidableEq, Repr

structure TransTrace where
  result : String
  attempts : Nat
  sleeps : List Nat
deriving DecidableEq, Repr

/-- The retry loop of `translate_to_gujarati`, recursing on the number of
remaining attempts; `attempt` is the index of the current attempt. -/
def translateAux (svc : Nat → TransResult) (text : String) (attempt : Nat) :
    Nat → TransTrace
  | 0 => ⟨text, 0, []⟩
  | n + 1 =>
    match svc attempt with
    | .ok s => ⟨s, 1, []⟩
    | .notFound => ⟨text, 1, []⟩
    | .err =>
      let t := translateAux svc text (attempt + 1) n
      ⟨t.result, t.attempts + 1, 2 :: t.sleeps⟩

def translate_to_gujarati (svc : Nat → TransResult) (text : String) : TransTrace :=
  translateAux svc text 0 3

/-! ## Article extractor: `scrape_and_get_content` (main.py lines 57-91)

A fetched article page is modelled by the data the function inspects: the
optional main content `div` (class `inside_post column content_width`),
its optional `h1#list` heading text, and the list of direct child tags.
Each child tag carries its name, its optional class list (`tag.get('class')`
returns `None` or a list in Python), its text, and — for `ul` tags — the
texts of its `li` descendants.  The translator is abstracted as a function
`tr` (in the source it is `translate_to_gujarati`, which is total). -/

inductive BlockType where
  | heading
  | paragraph
  | heading_2
  | heading_4
  | list_item
deriving DecidableEq, Repr

structure Block where
  type : BlockType
  text : String
deriving DecidableEq, Repr

structure Tag where
  name : String
  classes : Option (List String)
  text : String
  items : List String
deriving DecidableEq, Repr

structure Container where
  heading : Option String
  children : List Tag
deriving DecidableEq, Repr

structure Page where
  container : Option Container
deriving DecidableEq, Repr

inductive ExtractErr where
  | mainContentNotFound
  | headingNotFound
deriving DecidableEq, Repr

/-- The two exact class signatures skipped by the extractor loop
(main.py line 72). -/
def shareClasses : List String :=
  ["sharethis-inline-share-buttons", "st-center", "st-has-labels",
   "st-inline-share-buttons", "st-animated"]

def prenextClasses : List String := ["prenext"]

/-- The blocks contributed by one direct child tag of the content
container: the body of the extractor's `for` loop (main.py lines 71-90),
with the `continue` on the two skip signatures and the `if/elif` chain on
the tag name.  For a `ul`, the inner `li` loop appends a
(translated, original) pair per list item, each prefixed with a bullet
glyph. -/
def childBlocks (tr : String → String) (tag : Tag) : List Block :=
  if tag.classes = some shareClasses ∨ tag.classes = some prenextClasses then
    []
  else
    if tag.name = "p" then
      [⟨.paragraph, tr tag.text⟩, ⟨.paragraph, tag.text⟩]
    else if tag.name = "h2" then
      [⟨.heading_2, tr tag.text⟩, ⟨.heading_2, tag.text⟩]
    else if tag.name = "h4" then
      [⟨.heading_4, tr tag.text⟩, ⟨.heading_4, tag.text⟩]
    else if tag.name = "ul" then
      concatMap (fun li =>
        [⟨.list_item, "• " ++ tr li⟩, ⟨.list_item, "• " ++ li⟩]) tag.items
    else
      []

def scrape_and_get_content (tr : String → String) (page : Page) :
    Except ExtractErr (List Block) :=
  match page.container with
  | none => .error .mainContentNotFound
  | some mc =>
    match mc.heading with
    | none => .error .headingNotFound
    | some h =>
      .ok (List.foldl (fun acc tag => acc ++ childBlocks tr tag)
            [⟨.heading, tr h⟩, ⟨.heading, h⟩] mc.children)

/-! ## Document assembler: `insert_content_between_placeholders`
(main.py lines 93-127)

A document is its list of paragraphs; a paragraph has a text and a style
(python-docx `add_heading(level=n)` vs `add_paragraph(style=...)`).
`"START_CONTENT" in para.text` is Python substring containment, embedded
as contiguous-sublist containment on the character lists.

The function has no `raise`: when a placeholder is missing it logs an
error and returns with the document untouched, so that path is `.ok` with
the unchanged paragraph list.  The only exception the function can
produce is the `IndexError` from `doc.paragraphs[end_placeholder]` on
line 127, where `end_placeholder` is the index recorded before the
deletion phase; that is the `.error .indexError` outcome. -/

inductive DStyle where
  | headingL (level : Nat)
  | body (styleName : String)
deriving DecidableEq, Repr

structure RPara where
  text : String
  style : DStyle
deriving DecidableEq, Repr

inductive PyErr where
  | indexError
deriving DecidableEq, Repr

/-- Python `needle in hay` substring test. -/
def hasSubList (n : List Char) : List Char → Bool
  | [] => n.isEmpty
  | c :: t => n.isPrefixOf (c :: t) || hasSubList n t

def hasSubstr (needle hay : String) : Bool :=
  hasSubList needle.toList hay.toList

def hasStart (p : RPara) : Bool := hasSubstr "START_CONTENT" p.text

def hasEnd (p : RPara) : Bool := hasSubstr "END_CONTENT" p.text

/-- The placeholder scan (main.py lines 97-102): walk the paragraphs with
their indices, overwrite `start` on every paragraph containing the START
marker (`elif` gives the START branch priority on paragraphs containing
both), and break with the current `start` on the first remaining paragraph
containing the END marker. -/
def scanMarkers : List RPara → Nat → Option Nat → Option Nat × Option Nat
  | [], _, start => (start, none)
  | p :: ps, i, start =>
    if hasStart p then
      scanMarkers ps (i + 1) (some i)
    else if hasEnd p then
      (start, some i)
    else
      scanMarkers ps (i + 1) start

/-- Remove the element at index `i` (python-docx element removal). -/
def removeAt (l : List α) (i : Nat) : List α := l.take i ++ l.drop (i + 1)

/-- The deletion loop `for i in range(end-1, start, -1)` (lines 108-110):
remove indices `i, i-1, ..., s+1` in that order. -/
def delLoop (paras : List RPara) (i s : Nat) : List RPara :=
  match i with
  | 0 => paras
  | j + 1 =>
    if j + 1 ≤ s then paras else delLoop (removeAt paras (j + 1)) j s

/-- Insert an element so that it becomes the element at index `i`
(everything from `i` on is pushed one slot down). -/
def insertAt (l : List α) (i : Nat) (x : α) : List α :=
  l.take i ++ x :: l.drop i

/-- Rendering of one content block into a document paragraph
(lines 115-124): `add_heading(level=1/2/4)` for headings,
`add_paragraph(style='Normal')` for paragraphs,
`add_paragraph(style='List Bullet')` for list items. -/
def renderBlock (c : Block) : RPara :=
  match c.type with
  | .heading => ⟨c.text, .headingL 1⟩
  | .paragraph => ⟨c.text, .body "Normal"⟩
  | .heading_2 => ⟨c.text, .headingL 2⟩
  | .heading_4 => ⟨c.text, .headingL 4⟩
  | .list_item => ⟨c.text, .body "List Bullet"⟩

/-- The insertion loop (lines 112-124): reverse the content list, then for
each block append a rendered paragraph directly after the START paragraph
(python-docx `add_*` appends the new paragraph and `addnext` moves its
element to the position right after `doc.paragraphs[start]`, i.e. to
index `s + 1`). -/
def insertPhase (paras : List RPara) (s : Nat) (content : List Block) :
    List RPara :=
  List.foldl (fun ps c => insertAt ps (s + 1) (renderBlock c))
    paras content.reverse

/-- Overwrite the element at index `i` (no-op when out of range, used only
in range). -/
def modifyAt (l : List α) (i : Nat) (f : α → α) : List α :=
  match l, i with
  | [], _ => []
  | a :: t, 0 => f a :: t
  | a :: t, n + 1 => a :: modifyAt t n f

/-- `para.text = ""` keeps the paragraph (and its style), clearing the
text. -/
def clearText (p : RPara) : RPara := ⟨"", p.style⟩

def insert_content_between_placeholders (paras : List RPara)
    (content : List Block) : Except PyErr (List RPara) :=
  match scanMarkers paras 0 none with
  | (some s, some e) =>
    let afterDel := delLoop paras (e - 1) s
    let afterIns := insertPhase afterDel s content
    let afterClearS := modifyAt afterIns s clearText
    if e < afterClearS.length then
      .ok (modifyAt afterClearS e clearText)
    else
      .error .indexError
  | _ => .ok paras

/-! ## Bilingual pairing (claim-side notions)

A pair unit is one logical content unit: a block kind together with the
original text of the unit.  `renderUnit` spells out the corresponding
(translated, original) block pair, bullet-prefixed for list items. -/

abbrev PairUnit : Type := BlockType × String

def renderUnit (tr : String → String) (u : PairUnit) : List Block :=
  match u with
  | (.list_item, t) => [⟨.list_item, "• " ++ tr t⟩, ⟨.list_item, "• " ++ t⟩]
  | (ty, t) => [⟨ty, tr t⟩, ⟨ty, t⟩]

/-- A block list is bilingually paired for translator `tr` when it is a
concatenation of (translated, original) pairs of equal kind. -/
def Paired (tr : String → String) (L : List Block) : Prop :=
  ∃ units : List PairUnit, L = concatMap (renderUnit tr) units

/-- The pair units contributed by one direct child tag (claim-side
counterpart of `childBlocks`). -/
def unitsOfTag (tag : Tag) : List PairUnit :=
  if tag.classes = some shareClasses ∨ tag.classes = some prenextClasses then
    []
  else
    if tag.name = "p" then [(.paragraph, tag.text)]
    else if tag.name = "h2" then [(.heading_2, tag.text)]
    else if tag.name = "h4" then [(.heading_4, tag.text)]
    else if tag.name = "ul" then tag.items.map (fun li => (.list_item, li))
    else []

def defaultBlock : Block := ⟨.heading, ""⟩

/-! ## Lemmas and theorems -/

@[simp] theorem concatMap_nil (f : α → List β) : concatMap f [] = [] := rfl

@[simp] theorem concatMap_cons (f : α → List β) (a : α) (l : List α) :
    concatMap f (a :: l) = f a ++ concatMap f l := rfl

theorem concatMap_append (f : α → List β) (l₁ l₂ : List α) :
    concatMap f (l₁ ++ l₂) = concatMap f l₁ ++ concatMap f l₂ := by
  induction l₁ with
  | nil => simp
  | cons a t ih => simp [ih]

theorem concatMap_map (f : α → β) (g : β → List γ) (l : List α) :
    concatMap g (l.map f) = concatMap (fun a => g (f a)) l := by
  induction l with
  | nil => rfl
  | cons a t ih => simp [ih]

theorem concatMap_concatMap (f : α → List β) (g : β → List γ) (l : List α) :
    concatMap g (concatMap f l) = concatMap (fun a => concatMap g (f a)) l := by
  induction l with
  | nil => rfl
  | cons a t ih => simp [concatMap_append, ih]

theorem concatMap_ext (f g : α → List β) (l : List α) (h : ∀ a, f a = g a) :
    concatMap f l = concatMap g l := by
  induction l with
  | nil => rfl
  | cons a t ih => simp [h, ih]

theorem check_mem_out (urls : List String) :
    ∀ (seen : List String) (x : String),
      x ∈ (check_and_insert_urls urls seen).1 ↔ (x ∈ urls ∧ x ∉ seen) := by
  induction urls with
  | nil => intro seen x; simp [check_and_insert_urls]
  | cons u rest ih =>
    intro seen x
    by_cases hu : u ∈ seen
    · simp only [check_and_insert_urls, if_pos hu, ih]
      constructor
      · rintro ⟨hx, hns⟩; exact ⟨List.mem_cons_of_mem _ hx, hns⟩
      · rintro ⟨hx, hns⟩
        rcases List.mem_cons.mp hx with h | h
        · exact absurd (h ▸ hu) hns
        · exact ⟨h, hns⟩
    · simp only [check_and_insert_urls, if_neg hu, List.mem_cons, ih]
      constructor
      · rintro (rfl | ⟨hx, hns⟩)
        · exact ⟨Or.inl rfl, hu⟩
        · refine ⟨Or.inr hx, fun hc => hns ?_⟩
          exact List.mem_append_left _ hc
      · rintro ⟨hx | hx, hns⟩
        · exact Or.inl hx
        · by_cases hxu : x = u
          · exact Or.inl hxu
          · refine Or.inr ⟨hx, fun hc => ?_⟩
            rcases List.mem_append.mp hc with h | h
            · exact hns h
            · simp at h; exact hxu h

theorem check_mem_seen (urls : List String) :
    ∀ (seen : List String) (x : String),
      x ∈ (check_and_insert_urls urls seen).2 ↔ (x ∈ seen ∨ x ∈ urls) := by
  induction urls with
  | nil => intro seen x; simp [check_and_insert_urls]
  | cons u rest ih =>
    intro seen x
    by_cases hu : u ∈ seen
    · simp only [check_and_insert_urls, if_pos hu, ih, List.mem_cons]
      constructor
      · rintro (h | h)
        · exact Or.inl h
        · exact Or.inr (Or.inr h)
      · rintro (h | rfl | h)
        · exact Or.inl h
        · exact Or.inl hu
        · exact Or.inr h
    · simp only [check_and_insert_urls, if_neg hu, ih, List.mem_append,
        List.mem_cons, List.mem_singleton]
      tauto

theorem check_sublist (urls : List String) :
    ∀ seen : List String, (check_and_insert_urls urls seen).1.Sublist urls := by
  induction urls with
  | nil => intro seen; simp [check_and_insert_urls]
  | cons u rest ih =>
    intro seen
    by_cases hu : u ∈ seen
    · simp only [check_and_insert_urls, if_pos hu]
      exact (ih seen).cons u
    · simp only [check_and_insert_urls, if_neg hu]
      exact (ih (seen ++ [u])).cons₂ u

theorem check_all_seen (urls : List String) :
    ∀ seen : List String, (∀ u ∈ urls, u ∈ seen) →
      (check_and_insert_urls urls seen).1 = [] := by
  induction urls with
  | nil => intro seen _; rfl
  | cons u rest ih =>
    intro seen h
    have hu : u ∈ seen := h u (List.mem_cons_self u rest)
    simp only [check_and_insert_urls, if_pos hu]
    exact ih seen (fun v hv => h v (List.mem_cons_of_mem _ hv))

theorem check_nodup_filter (urls : List String) :
    ∀ seen : List String, urls.Nodup →
      (check_and_insert_urls urls seen).1
        = urls.filter (fun u => decide (u ∉ seen)) := by
  induction urls with
  | nil => intro seen _; rfl
  | cons u rest ih =>
    intro seen hnd
    have hnu : u ∉ rest := (List.nodup_cons.mp hnd).1
    have hnd' : rest.Nodup := (List.nodup_cons.mp hnd).2
    by_cases hu : u ∈ seen
    · simp only [check_and_insert_urls, if_pos hu]
      rw [ih seen hnd']
      simp [List.filter_cons, hu]
    · simp only [check_and_insert_urls, if_neg hu, List.filter_cons]
      simp only [ih (seen ++ [u]) hnd']
      simp [hu, List.mem_append]
      apply List.filter_congr
      intro v hv
      have hvu : v ≠ u := fun hc => hnu (hc ▸ hv)
      simp [hvu]

theorem check_append (a b : List String) :
    ∀ seen : List String,
      check_and_insert_urls (a ++ b) seen
        = ((check_and_insert_urls a seen).1
            ++ (check_and_insert_urls b (check_and_insert_urls a seen).2).1,
           (check_and_insert_urls b (check_and_insert_urls a seen).2).2) := by
  induction a with
  | nil => intro seen; simp [check_and_insert_urls]
  | cons u rest ih =>
    intro seen
    by_cases hu : u ∈ seen
    · simp only [List.cons_append, check_and_insert_urls, if_pos hu]
      exact ih seen
    · simp only [List.cons_append, check_and_insert_urls, if_neg hu]
      simp [ih (seen ++ [u])]

theorem mainRun_seen (seen article_urls : List String)
    (later : List String → Except String Unit) :
    (mainRun seen article_urls later).2
      = (check_and_insert_urls article_urls seen).2 := by
  unfold mainRun
  by_cases h : (check_and_insert_urls article_urls seen).1 = []
  · simp [h]
  · simp only [if_neg h]
    cases later (check_and_insert_urls article_urls seen).1 <;> simp

theorem foldl_append_concatMap (f : α → List β) (l : List α) :
    ∀ init : List β,
      List.foldl (fun acc a => acc ++ f a) init l = init ++ concatMap f l := by
  induction l with
  | nil => intro init; simp
  | cons a t ih => intro init; simp [ih, List.append_assoc]

/-- The successful extraction result, as heading pairs followed by the
per-child block lists in document order. -/
theorem scrape_ok_shape (tr : String → String) (page : Page)
    (mc : Container) (h : String)
    (hc : page.container = some mc) (hh : mc.heading = some h) :
    scrape_and_get_content tr page
      = .ok (⟨.heading, tr h⟩ :: ⟨.heading, h⟩ ::
          concatMap (childBlocks tr) mc.children) := by
  simp [scrape_and_get_content, hc, hh, foldl_append_concatMap]

/-! ## Lemmas about the assembler phases -/

theorem insertAt_after (pre : List α) (x y : α) (L : List α) :
    insertAt (pre ++ x :: L) (pre.length + 1) y = pre ++ x :: y :: L := by
  induction pre with
  | nil => simp [insertAt]
  | cons a t ih =>
    simp only [List.cons_append, insertAt, List.length_cons, List.take_succ_cons,
      List.drop_succ_cons] at *
    simpa using ih

theorem insertPhase_eq (content : List Block) (pre rest : List RPara) (x : RPara) :
    insertPhase (pre ++ x :: rest) pre.length content
      = pre ++ x :: (content.map renderBlock ++ rest) := by
  induction content with
  | nil => simp [insertPhase]
  | cons c cs ih =>
    simp only [insertPhase, List.reverse_cons, List.foldl_append, List.foldl_cons,
      List.foldl_nil] at *
    rw [ih, insertAt_after]
    simp

theorem scan_no_start (l : List RPara) :
    ∀ i : Nat, (∀ p ∈ l, hasStart p = false) →
      (scanMarkers l i none).1 = none := by
  induction l with
  | nil => intro i _; rfl
  | cons p t ih =>
    intro i h
    have hp : hasStart p = false := h p (List.mem_cons_self p t)
    simp only [scanMarkers, hp, Bool.false_eq_true, if_false]
    by_cases he : hasEnd p
    · simp [he]
    · simp only [he, Bool.false_eq_true, if_false]
      exact ih (i + 1) (fun q hq => h q (List.mem_cons_of_mem _ hq))

theorem scan_no_end (l : List RPara) :
    ∀ (i : Nat) (acc : Option Nat), (∀ p ∈ l, hasEnd p = false) →
      (scanMarkers l i acc).2 = none := by
  induction l with
  | nil => intro i acc _; rfl
  | cons p t ih =>
    intro i acc h
    have hp : hasEnd p = false := h p (List.mem_cons_self p t)
    have ht : ∀ q ∈ t, hasEnd q = false :=
      fun q hq => h q (List.mem_cons_of_mem _ hq)
    by_cases hs : hasStart p
    · simp only [scanMarkers, hs, if_true]
      exact ih (i + 1) (some i) ht
    · simp only [scanMarkers, hs, Bool.false_eq_true, if_false, hp]
      exact ih (i + 1) acc ht

/-- Over a prefix whose paragraphs each either contain the START marker or
contain no END marker, the scan just walks past (possibly updating its
start accumulator). -/
theorem scan_skip_front (a : List RPara) :
    ∀ (rest : List RPara) (i : Nat) (acc : Option Nat),
      (∀ p ∈ a, hasStart p = true ∨ hasEnd p = false) →
      ∃ acc2, scanMarkers (a ++ rest) i acc
        = scanMarkers rest (i + a.length) acc2 := by
  induction a with
  | nil => intro rest i acc _; exact ⟨acc, by simp⟩
  | cons p t ih =>
    intro rest i acc h
    have hp := h p (List.mem_cons_self p t)
    have ht : ∀ q ∈ t, hasStart q = true ∨ hasEnd q = false :=
      fun q hq => h q (List.mem_cons_of_mem _ hq)
    rcases hp with hp | hp
    · obtain ⟨acc2, hacc⟩ := ih rest (i + 1) (some i) ht
      refine ⟨acc2, ?_⟩
      simp only [List.cons_append, scanMarkers, hp, if_true, List.append_eq]
      rw [hacc]
      congr 1
      simp [List.length_cons]
      omega
    · by_cases hs : hasStart p
      · obtain ⟨acc2, hacc⟩ := ih rest (i + 1) (some i) ht
        refine ⟨acc2, ?_⟩
        simp only [List.cons_append, scanMarkers, hs, if_true, List.append_eq]
        rw [hacc]
        congr 1
        simp [List.length_cons]
        omega
      · obtain ⟨acc2, hacc⟩ := ih rest (i + 1) acc ht
        refine ⟨acc2, ?_⟩
        simp only [List.cons_append, scanMarkers, hs, Bool.false_eq_true,
          if_false, hp, List.append_eq]
        rw [hacc]
        congr 1
        simp [List.length_cons]
        omega

/-- Over a middle segment free of both markers, the scan keeps its start
accumulator and breaks at the END paragraph that follows. -/
theorem scan_mid (b : List RPara) :
    ∀ (c : List RPara) (E : RPara) (i s : Nat),
      hasEnd E = true → hasStart E = false →
      (∀ p ∈ b, hasStart p = false ∧ hasEnd p = false) →
      scanMarkers (b ++ E :: c) i (some s) = (some s, some (i + b.length)) := by
  induction b with
  | nil =>
    intro c E i s hE hEs _
    simp [scanMarkers, hEs, hE]
  | cons p t ih =>
    intro c E i s hE hEs h
    have hp := h p (List.mem_cons_self p t)
    have ht : ∀ q ∈ t, hasStart q = false ∧ hasEnd q = false :=
      fun q hq => h q (List.mem_cons_of_mem _ hq)
    simp only [List.cons_append, scanMarkers, hp.1, hp.2, Bool.false_eq_true,
      if_false, List.append_eq]
    rw [ih c E (i + 1) s hE hEs ht]
    congr 2
    simp [List.length_cons]
    omega

/-! ## Claim C1 -/

/-- C1: for every content list in its desired final order and every
placeholder pair, the reverse-iteration insertion strategy (reverse the
content list, then insert each rendered block immediately after the START
paragraph, main.py lines 112-124) yields a document whose paragraphs
strictly between the START marker paragraph and the END marker paragraph
are exactly the rendered content list in forward order. -/
theorem c1_reverse_insertion_forward_order
    (pre post : List RPara) (startP endP : RPara) (content : List Block)
    (_hs : hasStart startP = true) (_he : hasEnd endP = true) :
    insertPhase (pre ++ startP :: endP :: post) pre.length content
      = pre ++ startP :: (content.map renderBlock ++ endP :: post) :=
  insertPhase_eq content pre (endP :: post) startP

/-- Witness for C1 at the spec's example `[H, P1, P2]`: inserted between
adjacent markers, the rendered paragraphs appear in forward order. -/
theorem c1_reverse_insertion_forward_order_witness :
    insertPhase
        [⟨"START_CONTENT", .body "Normal"⟩, ⟨"END_CONTENT", .body "Normal"⟩] 0
        [⟨.heading, "H"⟩, ⟨.paragraph, "P1"⟩, ⟨.paragraph, "P2"⟩]
      = [⟨"START_CONTENT", .body "Normal"⟩,
         ⟨"H", .headingL 1⟩, ⟨"P1", .body "Normal"⟩, ⟨"P2", .body "Normal"⟩,
         ⟨"END_CONTENT", .body "Normal"⟩] := by
  have h := c1_reverse_insertion_forward_order
    [] [] ⟨"START_CONTENT", .body "Normal"⟩ ⟨"END_CONTENT", .body "Normal"⟩
    [⟨.heading, "H"⟩, ⟨.paragraph, "P1"⟩, ⟨.paragraph, "P2"⟩]
    (by decide) (by decide)
  simpa [renderBlock] using h

/-! ## Claim C2 -/

/-- C2 counterexample: on a template missing both markers the assembler
does NOT fail — there is no `raise` on that path (main.py lines 104-106):
it logs and returns, leaving the document unchanged, and the run
continues.  The result is `.ok` with the unmodified paragraph list, not an
error. -/
theorem c2_missing_marker_counterexample :
    insert_content_between_placeholders
        [⟨"hello", .body "Normal"⟩] [⟨.heading, "H"⟩]
      = .ok [⟨"hello", .body "Normal"⟩] := by
  rfl

/-- C2 amended: if no paragraph contains the START marker, or no paragraph
contains the END marker, `insert_content_between_placeholders` returns
with the template unmodified and raises no exception (the missing-marker
condition is only logged; no `TemplateError` exists in the code). -/
theorem c2_missing_marker_silent_return
    (paras : List RPara) (content : List Block)
    (h : (∀ p ∈ paras, hasStart p = false) ∨ (∀ p ∈ paras, hasEnd p = false)) :
    insert_content_between_placeholders paras content = .ok paras := by
  unfold insert_content_between_placeholders
  rcases hscan : scanMarkers paras 0 none with ⟨os, oe⟩
  rcases h with h | h
  · have h1 : (scanMarkers paras 0 none).1 = none := scan_no_start paras 0 h
    rw [hscan] at h1
    simp only at h1
    subst h1
    rfl
  · have h2 : (scanMarkers paras 0 none).2 = none := scan_no_end paras 0 none h
    rw [hscan] at h2
    simp only at h2
    subst h2
    cases os <;> rfl

/-- Witness for C2 amended at a concrete marker-free template. -/
theorem c2_missing_marker_silent_return_witness :
    insert_content_between_placeholders
        [⟨"just text", .body "Normal"⟩] [⟨.paragraph, "P1"⟩]
      = .ok [⟨"just text", .body "Normal"⟩] :=
  c2_missing_marker_silent_return
    [⟨"just text", .body "Normal"⟩] [⟨.paragraph, "P1"⟩]
    (Or.inl (by decide))

/-! ## Claim C3 -/

/-- C3 counterexample: in the template
`["START_CONTENT", "START_CONTENT again", "END_CONTENT"]` the first
paragraph containing the START marker has index 0, yet the scan records
START index 1: the loop has no `break` on the START branch and overwrites
the recorded index on every START-marker paragraph up to the END break. -/
theorem c3_first_start_counterexample :
    scanMarkers
        [⟨"START_CONTENT", .body "Normal"⟩,
         ⟨"START_CONTENT again", .body "Normal"⟩,
         ⟨"END_CONTENT", .body "Normal"⟩] 0 none
      = (some 1, some 2)
    ∧ hasStart ⟨"START_CONTENT", .body "Normal"⟩ = true := by
  constructor
  · rfl
  · rfl

/-- C3 amended: the scan selects as START index the index of the LAST
paragraph containing the START marker substring before the chosen END
paragraph, and as END index the first paragraph that contains the END
marker substring but not the START marker substring (the `elif` gives
START priority); paragraphs before it may contain the START marker or no
END marker.  Formally: for a template `a ++ [P] ++ b ++ [E] ++ c` with
`P` a START-marker paragraph, `E` an END-not-START paragraph, `b` free of
both markers and every paragraph of `a` either a START-marker paragraph
or free of the END marker, the scan returns indices
`(|a|, |a| + 1 + |b|)`. -/
theorem c3_last_start_before_first_end
    (a b c : List RPara) (P E : RPara)
    (hP : hasStart P = true)
    (hE : hasEnd E = true) (hEs : hasStart E = false)
    (hb : ∀ p ∈ b, hasStart p = false ∧ hasEnd p = false)
    (ha : ∀ p ∈ a, hasStart p = true ∨ hasEnd p = false) :
    scanMarkers (a ++ P :: (b ++ E :: c)) 0 none
      = (some a.length, some (a.length + 1 + b.length)) := by
  obtain ⟨acc2, hacc⟩ := scan_skip_front a (P :: (b ++ E :: c)) 0 none ha
  rw [hacc]
  simp only [scanMarkers, hP, if_true, Nat.zero_add]
  rw [scan_mid b c E (a.length + 1) a.length hE hEs hb]

/-- Witness for C3 amended, at the counterexample template: the returned
indices are those of the last START paragraph and the first END
paragraph. -/
theorem c3_last_start_before_first_end_witness :
    scanMarkers
        ([⟨"START_CONTENT", .body "Normal"⟩]
          ++ ⟨"START_CONTENT again", .body "Normal"⟩ ::
            ([] ++ ⟨"END_CONTENT", .body "Normal"⟩ :: [])) 0 none
      = (some 1, some 2) := by
  have h := c3_last_start_before_first_end
    [⟨"START_CONTENT", .body "Normal"⟩] [] []
    ⟨"START_CONTENT again", .body "Normal"⟩ ⟨"END_CONTENT", .body "Normal"⟩
    (by decide) (by decide) (by decide) (by decide) (by decide)
  simpa using h

/-! ## Claim C4 -/

/-- C4: when the content container and its heading are present, extraction
returns the translated heading, the original heading, and then — for each
direct child in document order — the (translated, original) pair of blocks
of the kind given by its tag (skip-class children and unrecognised tags
contributing nothing); when the container or the heading is absent, it
fails with the corresponding extraction error. -/
theorem c4_extraction_order_and_failure
    (tr : String → String) (page : Page) :
    (page.container = none →
      scrape_and_get_content tr page = .error .mainContentNotFound)
    ∧ (∀ mc : Container, page.container = some mc → mc.heading = none →
        scrape_and_get_content tr page = .error .headingNotFound)
    ∧ (∀ (mc : Container) (h : String),
        page.container = some mc → mc.heading = some h →
        scrape_and_get_content tr page
          = .ok (⟨.heading, tr h⟩ :: ⟨.heading, h⟩ ::
              concatMap (childBlocks tr) mc.children)) := by
  refine ⟨?_, ?_, ?_⟩
  · intro hc
    simp [scrape_and_get_content, hc]
  · intro mc hc hh
    simp [scrape_and_get_content, hc, hh]
  · intro mc h hc hh
    exact scrape_ok_shape tr page mc h hc hh

/-- Witness for C4 on a concrete page: a paragraph child, a skipped
share-widget child, a list child and an ignored `div` child. -/
theorem c4_extraction_order_and_failure_witness :
    scrape_and_get_content (fun s => "T:" ++ s)
        ⟨some ⟨some "Head",
          [⟨"p", none, "body", []⟩,
           ⟨"div", some shareClasses, "share", []⟩,
           ⟨"ul", none, "items", ["one", "two"]⟩,
           ⟨"div", none, "nav", []⟩]⟩⟩
      = .ok [⟨.heading, "T:Head"⟩, ⟨.heading, "Head"⟩,
             ⟨.paragraph, "T:body"⟩, ⟨.paragraph, "body"⟩,
             ⟨.list_item, "• T:one"⟩, ⟨.list_item, "• one"⟩,
             ⟨.list_item, "• T:two"⟩, ⟨.list_item, "• two"⟩] := by
  have h := (c4_extraction_order_and_failure (fun s => "T:" ++ s)
      ⟨some ⟨some "Head",
        [⟨"p", none, "body", []⟩,
         ⟨"div", some shareClasses, "share", []⟩,
         ⟨"ul", none, "items", ["one", "two"]⟩,
         ⟨"div", none, "nav", []⟩]⟩⟩).2.2
    ⟨some "Head",
      [⟨"p", none, "body", []⟩,
       ⟨"div", some shareClasses, "share", []⟩,
       ⟨"ul", none, "items", ["one", "two"]⟩,
       ⟨"div", none, "nav", []⟩]⟩ "Head" rfl rfl
  rw [h]
  rfl

/-! ## Claim C5 -/

/-- C5: the translator never propagates an error (the embedding is a total
function, both `except` arms being caught); it makes at most 3 attempts;
a "no translation found" outcome on the first attempt immediately returns
the original text with no retry and no backoff sleep; and when all three
attempts fail it returns the original text unchanged, having slept the
fixed 2 time units after each failed attempt. -/
theorem c5_translator_retry_fallback
    (svc : Nat → TransResult) (text : String) :
    (translate_to_gujarati svc text).attempts ≤ 3
    ∧ (svc 0 = .notFound →
        translate_to_gujarati svc text = ⟨text, 1, []⟩)
    ∧ ((svc 0 = .err ∧ svc 1 = .err ∧ svc 2 = .err) →
        translate_to_gujarati svc text = ⟨text, 3, [2, 2, 2]⟩) := by
  refine ⟨?_, ?_, ?_⟩
  · unfold translate_to_gujarati translateAux
    rcases h0 : svc 0 with s | _ | _ <;> simp [h0]
    · unfold translateAux
      rcases h1 : svc 1 with s | _ | _ <;> simp [h1]
      · unfold translateAux
        rcases h2 : svc 2 with s | _ | _ <;> simp [h2, translateAux]
  · intro h0
    unfold translate_to_gujarati translateAux
    simp [h0]
  · rintro ⟨h0, h1, h2⟩
    unfold translate_to_gujarati translateAux
    simp only [h0]
    unfold translateAux
    simp only [h1]
    unfold translateAux
    simp only [h2]
    rfl

/-- Witness for C5 with an always-failing service: three attempts, a
2-unit sleep after each, and the original text returned. -/
theorem c5_translator_retry_fallback_witness :
    translate_to_gujarati (fun _ => TransResult.err) "untranslated"
      = ⟨"untranslated", 3, [2, 2, 2]⟩ :=
  (c5_translator_retry_fallback (fun _ => TransResult.err) "untranslated").2.2
    ⟨rfl, rfl, rfl⟩

/-! ## Claim C6 -/

/-- C6: the dedup gate returns the input subsequence of URLs not in the
seen-set (order preserved), inserting each returned URL as it goes: the
output is a sublist of the input; a URL is returned iff it occurs in the
input and was not initially seen; the final seen-set holds exactly the
initial entries plus the returned URLs; on duplicate-free fresh input the
whole input is returned; and a second call with the same URLs against the
resulting seen-set returns nothing. -/
theorem c6_dedup_gate_filter_and_idempotence (urls seen : List String) :
    (check_and_insert_urls urls seen).1.Sublist urls
    ∧ (∀ x, x ∈ (check_and_insert_urls urls seen).1
        ↔ (x ∈ urls ∧ x ∉ seen))
    ∧ (∀ x, x ∈ (check_and_insert_urls urls seen).2
        ↔ (x ∈ seen ∨ x ∈ (check_and_insert_urls urls seen).1))
    ∧ (urls.Nodup → (∀ u ∈ urls, u ∉ seen) →
        (check_and_insert_urls urls seen).1 = urls)
    ∧ (check_and_insert_urls urls (check_and_insert_urls urls seen).2).1
        = [] := by
  refine ⟨check_sublist urls seen, check_mem_out urls seen, ?_, ?_, ?_⟩
  · intro x
    rw [check_mem_seen urls seen x, check_mem_out urls seen x]
    constructor
    · rintro (h | h)
      · exact Or.inl h
      · by_cases hx : x ∈ seen
        · exact Or.inl hx
        · exact Or.inr ⟨h, hx⟩
    · rintro (h | ⟨h, _⟩)
      · exact Or.inl h
      · exact Or.inr h
  · intro hnd hfresh
    rw [check_nodup_filter urls seen hnd]
    rw [List.filter_eq_self]
    intro u hu
    simpa using hfresh u hu
  · apply check_all_seen
    intro u hu
    rw [check_mem_seen]
    exact Or.inr hu

/-- Witness for C6: two fresh distinct URLs are all returned on the first
call and none on the second. -/
theorem c6_dedup_gate_filter_and_idempotence_witness :
    (check_and_insert_urls ["u1", "u2"] []).1 = ["u1", "u2"]
    ∧ (check_and_insert_urls ["u1", "u2"]
        (check_and_insert_urls ["u1", "u2"] []).2).1 = [] :=
  ⟨(c6_dedup_gate_filter_and_idempotence ["u1", "u2"] []).2.2.2.1
      (by decide) (by decide),
   (c6_dedup_gate_filter_and_idempotence ["u1", "u2"] []).2.2.2.2⟩

/-! ## Claim C7 -/

/-- C7 is a code bug: on the template
`["START_CONTENT", "middle", "END_CONTENT"]` with an empty content list,
the assembler deletes the middle paragraph and then executes
`doc.paragraphs[end_placeholder].text = ""` with the pre-deletion end
index 2 against the now 2-paragraph document, raising `IndexError`
instead of succeeding with both markers cleared as the spec requires. -/
theorem c7_empty_content_index_error :
    insert_content_between_placeholders
        [⟨"START_CONTENT", .body "Normal"⟩,
         ⟨"middle", .body "Normal"⟩,
         ⟨"END_CONTENT", .body "Normal"⟩] []
      = .error .indexError := by
  rfl

/-! ## Claim C8 -/

/-- C8: seen-set entries are permanent.  The dedup gate never removes an
entry (everything initially seen is still in its output state), and the
driver's final seen-set state equals the gate's output state in every
branch — including when any later stage fails — so entries survive the
whole run with no rollback. -/
theorem c8_seen_set_permanent
    (seen urls : List String) (later : List String → Except String Unit)
    (x : String) (hx : x ∈ seen) :
    x ∈ (check_and_insert_urls urls seen).2
    ∧ (mainRun seen urls later).2 = (check_and_insert_urls urls seen).2
    ∧ x ∈ (mainRun seen urls later).2 := by
  have hmem : x ∈ (check_and_insert_urls urls seen).2 :=
    (check_mem_seen urls seen x).mpr (Or.inl hx)
  have hrun := mainRun_seen seen urls later
  exact ⟨hmem, hrun, hrun ▸ hmem⟩

/-- Witness for C8: a previously seen URL survives a run whose
post-dedup stage fails. -/
theorem c8_seen_set_permanent_witness :
    "old" ∈ (mainRun ["old"] ["new"] (fun _ => Except.error "boom")).2 :=
  (c8_seen_set_permanent ["old"] ["new"] (fun _ => Except.error "boom")
    "old" (by decide)).2.2

/-! ## Claim C9 -/

/-- C9: an unseen URL occurring more than once in the input is returned
exactly once, at its first occurrence: writing the input as
`pre ++ x :: post` with `x` unseen and not in `pre`, the output is the
output for `pre`, then `x`, then the output for `post` computed against a
seen-set already containing `x` — so every later occurrence of `x` tests
as seen and the total count of `x` in the output is 1. -/
theorem c9_duplicate_input_emitted_once
    (seen pre post : List String) (x : String)
    (hseen : x ∉ seen) (hpre : x ∉ pre) :
    (check_and_insert_urls (pre ++ x :: post) seen).1
      = (check_and_insert_urls pre seen).1
        ++ x :: (check_and_insert_urls post
            ((check_and_insert_urls pre seen).2 ++ [x])).1
    ∧ ((check_and_insert_urls (pre ++ x :: post) seen).1).count x = 1 := by
  have hxs : x ∉ (check_and_insert_urls pre seen).2 := by
    rw [check_mem_seen]
    rintro (h | h)
    · exact hseen h
    · exact hpre h
  have hsplit := check_append pre (x :: post) seen
  have hstep : check_and_insert_urls (x :: post)
      (check_and_insert_urls pre seen).2
      = (x :: (check_and_insert_urls post
          ((check_and_insert_urls pre seen).2 ++ [x])).1,
         (check_and_insert_urls post
          ((check_and_insert_urls pre seen).2 ++ [x])).2) := by
    simp [check_and_insert_urls, hxs]
  have heq : (check_and_insert_urls (pre ++ x :: post) seen).1
      = (check_and_insert_urls pre seen).1
        ++ x :: (check_and_insert_urls post
            ((check_and_insert_urls pre seen).2 ++ [x])).1 := by
    rw [hsplit, hstep]
  refine ⟨heq, ?_⟩
  rw [heq]
  have hc1 : ((check_and_insert_urls pre seen).1).count x = 0 := by
    rw [List.count_eq_zero]
    intro hmem
    exact hpre ((check_mem_out pre seen x).mp hmem).1
  have hc2 : ((check_and_insert_urls post
      ((check_and_insert_urls pre seen).2 ++ [x])).1).count x = 0 := by
    rw [List.count_eq_zero]
    intro hmem
    have := ((check_mem_out post _ x).mp hmem).2
    exact this (List.mem_append_right _ (List.mem_singleton.mpr rfl))
  rw [List.count_append, hc1, List.count_cons_self, hc2]

/-- Witness for C9: the URL `"u"` listed twice against an empty seen-set
is returned once, at its first position. -/
theorem c9_duplicate_input_emitted_once_witness :
    (check_and_insert_urls ([] ++ "u" :: ["v", "u"]) []).1
      = ([] : List String)
        ++ "u" :: (check_and_insert_urls ["v", "u"]
            ((check_and_insert_urls [] ([] : List String)).2 ++ ["u"])).1
    ∧ ((check_and_insert_urls ([] ++ "u" :: ["v", "u"]) []).1).count "u" = 1 := by
  have h := c9_duplicate_input_emitted_once [] [] ["v", "u"] "u"
    (by decide) (by decide)
  simpa using h

/-! ## Claim C10 -/

theorem renderUnit_shape (tr : String → String) (u : PairUnit) :
    ∃ b1 b2 : Block, renderUnit tr u = [b1, b2]
      ∧ b1.type = b2.type
      ∧ ((b1.text = tr u.2 ∧ b2.text = u.2)
          ∨ (b1.text = "• " ++ tr u.2 ∧ b2.text = "• " ++ u.2)) := by
  rcases u with ⟨ty, t⟩
  cases ty <;>
    exact ⟨_, _, rfl, rfl, by first | exact Or.inl ⟨rfl, rfl⟩ | exact Or.inr ⟨rfl, rfl⟩⟩

theorem renderUnits_of_tag (tr : String → String) (tag : Tag) :
    concatMap (renderUnit tr) (unitsOfTag tag) = childBlocks tr tag := by
  unfold unitsOfTag childBlocks
  split_ifs with h1 h2 h3 h4 h5
  · rfl
  · simp [renderUnit]
  · simp [renderUnit]
  · simp [renderUnit]
  · rw [concatMap_map]
    rfl
  · rfl

theorem paired_append (tr : String → String) (L1 L2 : List Block)
    (h1 : Paired tr L1) (h2 : Paired tr L2) : Paired tr (L1 ++ L2) := by
  obtain ⟨u1, hu1⟩ := h1
  obtain ⟨u2, hu2⟩ := h2
  exact ⟨u1 ++ u2, by rw [hu1, hu2, concatMap_append]⟩

theorem paired_scrape (tr : String → String) (page : Page) (L : List Block)
    (h : scrape_and_get_content tr page = .ok L) : Paired tr L := by
  rcases hc : page.container with _ | mc
  · rw [scrape_and_get_content, hc] at h
    exact absurd h (by simp)
  · rcases hh : mc.heading with _ | hd
    · rw [scrape_and_get_content, hc] at h
      simp only [hh] at h
      exact absurd h (by simp)
    · have hshape := scrape_ok_shape tr page mc hd hc hh
      rw [hshape] at h
      have hL : L = ⟨.heading, tr hd⟩ :: ⟨.heading, hd⟩ ::
          concatMap (childBlocks tr) mc.children := by
        injection h with h
        exact h.symm
      refine ⟨(.heading, hd) :: concatMap unitsOfTag mc.children, ?_⟩
      rw [hL, concatMap_cons, concatMap_concatMap]
      have : concatMap (fun t => concatMap (renderUnit tr) (unitsOfTag t))
          mc.children = concatMap (childBlocks tr) mc.children :=
        concatMap_ext _ _ _ (renderUnits_of_tag tr)
      rw [this]
      rfl

theorem paired_length_even (tr : String → String) (L : List Block)
    (h : Paired tr L) : L.length % 2 = 0 := by
  obtain ⟨units, hu⟩ := h
  subst hu
  induction units with
  | nil => rfl
  | cons u rest ih =>
    obtain ⟨b1, b2, hshape, -, -⟩ := renderUnit_shape tr u
    simp [hshape, List.length_append, Nat.add_mod, ih]

theorem paired_getD (tr : String → String) (L : List Block)
    (h : Paired tr L) :
    ∀ i : Nat, 2 * i + 1 < L.length →
      (L.getD (2 * i) defaultBlock).type
        = (L.getD (2 * i + 1) defaultBlock).type
      ∧ ∃ t : String,
          ((L.getD (2 * i) defaultBlock).text = tr t
            ∧ (L.getD (2 * i + 1) defaultBlock).text = t)
          ∨ ((L.getD (2 * i) defaultBlock).text = "• " ++ tr t
            ∧ (L.getD (2 * i + 1) defaultBlock).text = "• " ++ t) := by
  obtain ⟨units, hu⟩ := h
  subst hu
  induction units with
  | nil => intro i hi; simp at hi
  | cons u rest ih =>
    intro i hi
    obtain ⟨b1, b2, hshape, hty, htx⟩ := renderUnit_shape tr u
    rw [concatMap_cons, hshape] at hi ⊢
    cases i with
    | zero => exact ⟨hty, u.2, htx⟩
    | succ j =>
      have h2 : 2 * (j + 1) = 2 * j + 1 + 1 := by ring
      rw [h2]
      simp only [List.cons_append, List.nil_append, List.getD_cons_succ]
      apply ih
      simp only [List.cons_append, List.nil_append, List.length_cons] at hi
      omega

/-- C10: every successful extraction result is a concatenation of
(translated, original) block pairs, the pairing is preserved by the
driver's concatenation across articles (main.py lines 211-215), and any
such list has even length with, at each index pair `(2k, 2k+1)`, equal
block kinds and texts of the form (translated, original) — bullet-prefixed
for list items. -/
theorem c10_bilingual_pairing (tr : String → String) :
    (∀ (page : Page) (L : List Block),
      scrape_and_get_content tr page = .ok L → Paired tr L)
    ∧ (∀ L1 L2 : List Block,
        Paired tr L1 → Paired tr L2 → Paired tr (L1 ++ L2))
    ∧ (∀ L : List Block, Paired tr L →
        L.length % 2 = 0
        ∧ ∀ i : Nat, 2 * i + 1 < L.length →
            (L.getD (2 * i) defaultBlock).type
              = (L.getD (2 * i + 1) defaultBlock).type
            ∧ ∃ t : String,
                ((L.getD (2 * i) defaultBlock).text = tr t
                  ∧ (L.getD (2 * i + 1) defaultBlock).text = t)
                ∨ ((L.getD (2 * i) defaultBlock).text = "• " ++ tr t
                  ∧ (L.getD (2 * i + 1) defaultBlock).text = "• " ++ t)) :=
  ⟨paired_scrape tr,
   paired_append tr,
   fun L h => ⟨paired_length_even tr L h, paired_getD tr L h⟩⟩

/-- Witness for C10: the extraction result of a heading-only article is
bilingually paired. -/
theorem c10_bilingual_pairing_witness :
    Paired (fun s => "T:" ++ s) [⟨.heading, "T:H"⟩, ⟨.heading, "H"⟩] :=
  (c10_bilingual_pairing (fun s => "T:" ++ s)).1 ⟨some ⟨some "H", []⟩⟩
    [⟨.heading, "T:H"⟩, ⟨.heading, "H"⟩] rfl
